import Mathlib

/-!
Verification of the crypto-sentinel pipeline.

Shallow embedding of the two source programs:

* `src/dashboard/app.py` — the windowed data-loading, filtering, resampling
  and whale-detection pipeline (function `load_data` and the inline stages
  `df_resampled` / `whales`).
* `src/main.py` — the volatility-index calculator (`calculate_index`,
  `save_to_history`, `handler`) with its in-memory cache.

Conventions of the embedding:

* Timestamps are rationals, measured in seconds for trade records
  (so pandas rule `'1min'` is a 60-second bin) and in minutes for the
  index-handler cache (the source compares against
  `timedelta(minutes=CACHE_DURATION_MINUTES)` with the constant 5).
* Prices and quantities are rationals; the idealisation of IEEE doubles by
  exact rationals is noted where it matters.
* Remote effects (S3 list/get, the CoinGecko fetch, the DynamoDB put) are
  oracles passed in as function arguments or recorded in the result, so
  the stage functions stay pure.
-/

/-- One trade record, the row schema of the parquet files read by
`load_data` in `src/dashboard/app.py`: columns `time`, `price`,
`quantity`, `buyer_maker`. -/
structure TradeRec where
  time : ℚ
  price : ℚ
  quantity : ℚ
  buyer_maker : Bool
deriving DecidableEq, Repr

/-- Comparison by the `time` column, the key of `sort_values(by='time')`
(src/dashboard/app.py line 67). -/
def timeLE (a b : TradeRec) : Prop := a.time ≤ b.time

instance : DecidableRel timeLE := fun a b => inferInstanceAs (Decidable (a.time ≤ b.time))

instance : IsTotal TradeRec timeLE := ⟨fun a b => le_total a.time b.time⟩

instance : IsTrans TradeRec timeLE := ⟨fun _ _ _ h h' => le_trans h h'⟩

/-- Partition enumeration, src/dashboard/app.py lines 25-30.  A calendar
day is modelled as an integer day index; the source renders the key as
the string `btc_trades_YYYYMMDD`, an injective image of the day, and
appends yesterday's key exactly when `hours_to_load > 12`:

    prefixes = [f"btc_trades_{today...}"]
    if hours_to_load > 12:
        prefixes.append(f"btc_trades_{yesterday...}")
-/
def enumerate_prefixes (hours_to_load : ℚ) (today : ℤ) : List ℤ :=
  [today] ++ (if 12 < hours_to_load then [today - 1] else [])

/-- The heuristic object-fetch cap, src/dashboard/app.py line 45:

    limit = 300 if hours_to_load <= 4 else 1500
-/
def limit (hours_to_load : ℚ) : ℕ :=
  if hours_to_load ≤ 4 then 300 else 1500

/-- The per-object fetch/decode loop, src/dashboard/app.py lines 48-55.
Each object key is handed to a fetch-and-decode oracle; `none` models any
exception inside the `try` block (S3 get failure or parquet decode
failure), which the `except: continue` swallows, so the object is simply
skipped. -/
def data_frames (recent_files : List String)
    (fetch : String → Option (List TradeRec)) : List (List TradeRec) :=
  recent_files.filterMap fetch

/-- The merged batch, src/dashboard/app.py lines 57-60: `pd.concat` of the
successfully decoded frames; when no frame decoded the source returns the
empty `pd.DataFrame()`, which coincides with the concatenation of no
frames. -/
def final_df (recent_files : List String)
    (fetch : String → Option (List TradeRec)) : List TradeRec :=
  (data_frames recent_files fetch).flatten

/-- The window filter-and-sort stage, src/dashboard/app.py lines 64-67:

    cutoff_time = pd.Timestamp.now() - pd.Timedelta(hours=hours_to_load)
    final_df = final_df[final_df['time'] > cutoff_time]
    final_df = final_df.sort_values(by='time')

`ref` is the value of `pd.Timestamp.now()` in seconds, so the cutoff is
`ref - 3600 * hours_to_load`.  `sort_values` is modelled by a comparison
sort on the `time` key; the source's sort is unstable, so the order of
equal-time records is unspecified there, and any sort by `time` realises
the stage's contract. -/
def filter_and_sort (batch : List TradeRec) (hours_to_load : ℚ) (ref : ℚ) : List TradeRec :=
  (batch.filter (fun r => decide (ref - 3600 * hours_to_load < r.time))).insertionSort timeLE

/-- Whale detection, src/dashboard/app.py line 128:

    whales = df[df['quantity'] > whale_threshold]
-/
def whales (df : List TradeRec) (whale_threshold : ℚ) : List TradeRec :=
  df.filter (fun r => decide (whale_threshold < r.quantity))

/-- One OHLCV bar of the resampled frame (src/dashboard/app.py line 112
names the columns `open, high, low, close, volume`; `open` is a Lean
keyword, so the field is spelled `open_p`). -/
structure Bar where
  bin_start : ℤ
  open_p : ℚ
  high : ℚ
  low : ℚ
  close : ℚ
  volume : ℚ
deriving DecidableEq, Repr

/-- Bin assignment of pandas `resample`: the timestamp is floored to the
bin boundary.  `w` is the bin width in seconds (`'1min'` = 60). -/
def binStart (w : ℤ) (t : ℚ) : ℤ := w * ⌊t / (w : ℚ)⌋

/-- Price of the positionally last record of the group `r :: rs`; this is
the `'last'` aggregation of src/dashboard/app.py line 109, which on the
time-sorted frame is the time-latest record of the bin. -/
def close_price (r : TradeRec) : List TradeRec → ℚ
  | [] => r.price
  | x :: xs => close_price x xs

/-- The `'max'` aggregation over the prices of the group `r :: rs`. -/
def max_price (r : TradeRec) (rs : List TradeRec) : ℚ :=
  rs.foldl (fun m x => max m x.price) r.price

/-- The `'min'` aggregation over the prices of the group `r :: rs`. -/
def min_price (r : TradeRec) (rs : List TradeRec) : ℚ :=
  rs.foldl (fun m x => min m x.price) r.price

/-- The `'sum'` aggregation over the quantities of a group. -/
def sum_qty (l : List TradeRec) : ℚ := (l.map TradeRec.quantity).sum

/-- Aggregation of one non-empty bin group `r :: rs` into a bar,
src/dashboard/app.py lines 108-112: `open` = `'first'` (positionally
first record), `high` = `'max'`, `low` = `'min'`, `close` = `'last'`,
`volume` = sum of `quantity`. -/
def mkBar (w : ℤ) (r : TradeRec) (rs : List TradeRec) : Bar :=
  { bin_start := binStart w r.time
    open_p := r.price
    high := max_price r rs
    low := min_price r rs
    close := close_price r rs
    volume := r.quantity + sum_qty rs }

/-- Grouping of consecutive records that share a bin, the grouping pandas
`resample(...).agg(...)` performs on the time-sorted frame (on a sorted
frame the records of one bin are consecutive, so consecutive grouping and
global grouping coincide; the correspondence is proved below for sorted
input).  Each group is returned as head plus tail, so groups are
non-empty by construction — `dropna()` on line 113 removes exactly the
empty bins the dense pandas output would contain. -/
def groupByBin (w : ℤ) : List TradeRec → List (TradeRec × List TradeRec)
  | [] => []
  | r :: rs =>
    match groupByBin w rs with
    | [] => [(r, [])]
    | (g, gs) :: rest =>
      if binStart w r.time = binStart w g.time then (r, g :: gs) :: rest
      else (r, []) :: (g, gs) :: rest

/-- The resampler: one bar per non-empty bin, src/dashboard/app.py lines
108-113. -/
def resample (w : ℤ) (recs : List TradeRec) : List Bar :=
  (groupByBin w recs).map (fun g => mkBar w g.1 g.2)

/-- The resampling stage as invoked by the dashboard,
src/dashboard/app.py line 108: the rule string is the literal `'1min'`
(60 seconds) — it does not depend on `hours_to_load`, which is still
passed here because the claims quantify over it. -/
def df_resampled (hours_to_load : ℚ) (df : List TradeRec) : List Bar :=
  resample 60 df

/-- Last element of the non-empty price list `p :: ps`; this is
`prices[-1]` in src/main.py line 38 (on the empty list the source raises
`IndexError`, which `calculate_index` below models with `none`). -/
def last_price : ℚ → List ℚ → ℚ
  | p, [] => p
  | _, q :: qs => last_price q qs

/-- The index score, src/main.py lines 33-42:

    prices = [p[1] for p in data['prices']]
    returns = np.diff(prices) / prices[:-1]
    volatility = np.std(returns)
    current_price = prices[-1]
    sma_30 = np.mean(prices)
    momentum = (current_price - sma_30) / sma_30
    base_score = 50 + (momentum * 100)
    return int(max(0, min(100, base_score)))

Embedding notes, each traceable on the source:

* `volatility` is computed and never used; no numpy operation on a
  numeric array raises here (division by zero and `np.std` of an empty
  array produce warnings, not exceptions), so dropping it does not change
  the returned value or the reachability of any exception.
* On the empty list `prices[-1]` raises `IndexError`: result `none`.
* Real arithmetic is idealised by exact rationals.  When
  `sma_30 = 0` the source's float division yields `+inf`, `nan` or
  `-inf` (a numpy `RuntimeWarning`, not an exception) for
  `current_price > 0`, `= 0`, `< 0` respectively; `base_score` is then
  that same non-finite value, and Python's `min(100, x)` returns `100`
  for `x = +inf` and for `x = nan` (comparisons against `nan` are false,
  so the first argument is kept), while `min(100, -inf) = -inf` and
  `max(0, -inf) = 0`.  Hence the `sma_30 = 0` branch returns `0` when
  `current_price < 0` and `100` otherwise, without raising.
* `int()` truncates toward zero; the clamped value is `≥ 0`, so the
  truncation is the floor. -/
def calculate_index : List ℚ → Option ℤ
  | [] => none
  | p :: ps =>
    let prices := p :: ps
    let current_price := last_price p ps
    let sma_30 := prices.sum / (prices.length : ℚ)
    if sma_30 = 0 then
      some (if current_price < 0 then 0 else 100)
    else
      let momentum := (current_price - sma_30) / sma_30
      let base_score := 50 + momentum * 100
      some ⌊max 0 (min 100 base_score)⌋

/-- Modelled from the spec: the spec sentence "score = clamp(50 +
momentum×100, 0, 100) rounded to an integer" read with literal rounding
(`round`, i.e. nearest integer, halves up) in place of the source's
truncating `int()`.  Declared only to be compared with
`calculate_index`. -/
def index_score_rounded_spec : List ℚ → Option ℤ
  | [] => none
  | p :: ps =>
    let prices := p :: ps
    let current_price := last_price p ps
    let sma_30 := prices.sum / (prices.length : ℚ)
    if sma_30 = 0 then
      some (if current_price < 0 then 0 else 100)
    else
      let momentum := (current_price - sma_30) / sma_30
      let base_score := 50 + momentum * 100
      some (round (max 0 (min 100 base_score)))

/-- Sentiment classification, src/main.py line 81:

    sentiment = "Extreme Greed" if index_score > 75 else "Fear" if index_score < 25 else "Neutral"
-/
def sentiment_label (index_score : ℤ) : String :=
  if 75 < index_score then "Extreme Greed"
  else if index_score < 25 then "Fear"
  else "Neutral"

/-- The payload built by `handler` (src/main.py lines 88-93) and the item
shape written by `save_to_history` (lines 44-54).  The ISO timestamp is
modelled by the numeric invocation time it is rendered from. -/
structure IndexPayload where
  coin : String
  index_score : ℤ
  sentiment : String
  timestamp : ℚ
deriving DecidableEq, Repr

/-- The process-wide cache `_CACHE = {"last_updated": None, "payload":
None}`, src/main.py line 19. -/
structure CacheState where
  last_updated : Option ℚ
  payload : Option IndexPayload
deriving DecidableEq, Repr

/-- Everything observable about one `handler` invocation: the HTTP-style
response (status code and payload body; `none` as the whole response
models an uncaught exception, `none` as the body models the error-string
body), the cache left behind, the sequence of DynamoDB `put_item`
attempts (`save_to_history` swallows DynamoDB errors, so the attempt
itself is the persistence append), and the number of external-API
fetches performed. -/
structure HandlerOutcome where
  response : Option (ℕ × Option IndexPayload)
  cache : CacheState
  writes : List IndexPayload
  fetches : ℕ
deriving DecidableEq, Repr

/-- The cache-hit test of src/main.py lines 64-66: both fields set
(non-empty payload dicts and datetimes are truthy) and age strictly
below `CACHE_DURATION_MINUTES = 5`.  Times are in minutes. -/
def cache_hit (c : CacheState) (now : ℚ) : Bool :=
  match c.payload, c.last_updated with
  | some _, some t => decide (now - t < 5)
  | _, _ => false

/-- The fresh-computation path of `handler`, src/main.py lines 74-102.
`fetched` is the outcome of `fetch_market_data` reduced to its price
column: `none` when the call returned a falsy document (the function
returns `None` on any request exception), `some prices` otherwise.  On
fetch failure a stale payload is served if present (line 77, which
checks only `_CACHE["payload"]`), else status 500; on fetch success the
index is computed (an exception inside `calculate_index` propagates:
response `none`, nothing written), one history write is attempted, and
the cache is overwritten with the new payload and time. -/
def handler_fresh (c : CacheState) (fetched : Option (List ℚ)) (now : ℚ)
    (coin : String) : HandlerOutcome :=
  match fetched with
  | none =>
    match c.payload with
    | some p => ⟨some (200, some p), c, [], 1⟩
    | none => ⟨some (500, none), c, [], 1⟩
  | some prices =>
    match calculate_index prices with
    | none => ⟨none, c, [], 1⟩
    | some s =>
      let payload : IndexPayload := ⟨coin, s, sentiment_label s, now⟩
      ⟨some (200, some payload), ⟨some now, some payload⟩, [payload], 1⟩

/-- The handler, src/main.py lines 59-102: serve from cache when the hit
test passes (no fetch, no write, cache untouched), otherwise run the
fresh path. -/
def handler (c : CacheState) (fetched : Option (List ℚ)) (now : ℚ)
    (coin : String) : HandlerOutcome :=
  match c.payload, c.last_updated with
  | some p, some t =>
    if now - t < 5 then ⟨some (200, some p), c, [], 0⟩
    else handler_fresh c fetched now coin
  | _, _ => handler_fresh c fetched now coin

/-- Concrete two-trade batch from spec §8 scenario 6: one trade at `T = 0`
(price 100, quantity 0.01) and one at `T + 90 s` (price 110, quantity
0.2). -/
def tl2 : List TradeRec :=
  [⟨0, 100, 1/100, true⟩, ⟨90, 110, 1/5, false⟩]

/-- Concrete 30-day price series: 29 days at 199 and a last day at 229.
Its mean is 6000/30 = 200 and its momentum is 29/200, so
`base_score = 64.5`, which truncation and rounding send to different
integers. -/
def prices_ce : List ℚ :=
  [199, 199, 199, 199, 199, 199, 199, 199, 199, 199,
   199, 199, 199, 199, 199, 199, 199, 199, 199, 199,
   199, 199, 199, 199, 199, 199, 199, 199, 199, 229]

theorem calculate_index_cons (p : ℚ) (ps : List ℚ)
    (h : (p :: ps).sum / (((p :: ps).length : ℕ) : ℚ) ≠ 0) :
    calculate_index (p :: ps) =
      some ⌊max 0 (min 100 (50 +
        (last_price p ps - (p :: ps).sum / (((p :: ps).length : ℕ) : ℚ)) /
          ((p :: ps).sum / (((p :: ps).length : ℕ) : ℚ)) * 100))⌋ := by
  simp only [calculate_index]
  rw [if_neg h]

theorem calculate_index_cons_zero (p : ℚ) (ps : List ℚ)
    (h : (p :: ps).sum / (((p :: ps).length : ℕ) : ℚ) = 0) :
    calculate_index (p :: ps) = some (if last_price p ps < 0 then 0 else 100) := by
  simp only [calculate_index]
  rw [if_pos h]

/-- C4 (amended): for every successfully fetched price series with
nonzero mean, the index score equals clamp(50 + momentum×100, 0, 100)
truncated toward zero (the floor, since the clamped value is
non-negative) where momentum = (current price − mean) / mean; the
sentiment label is "Extreme Greed" when score > 75, "Fear" when
score < 25 and "Neutral" otherwise; and a series with zero momentum
yields score 50 and sentiment "Neutral". -/
theorem calculate_index_clamp_formula :
    ∀ (p : ℚ) (ps : List ℚ),
      (p :: ps).sum / (((p :: ps).length : ℕ) : ℚ) ≠ 0 →
      (calculate_index (p :: ps) =
        some ⌊max 0 (min 100 (50 +
          (last_price p ps - (p :: ps).sum / (((p :: ps).length : ℕ) : ℚ)) /
            ((p :: ps).sum / (((p :: ps).length : ℕ) : ℚ)) * 100))⌋) ∧
      (last_price p ps = (p :: ps).sum / (((p :: ps).length : ℕ) : ℚ) →
        calculate_index (p :: ps) = some 50 ∧ sentiment_label 50 = "Neutral") ∧
      (∀ s : ℤ, 75 < s → sentiment_label s = "Extreme Greed") ∧
      (∀ s : ℤ, s < 25 → sentiment_label s = "Fear") ∧
      (∀ s : ℤ, ¬75 < s → ¬s < 25 → sentiment_label s = "Neutral") := by
  intro p ps h
  refine ⟨calculate_index_cons p ps h, fun hze => ?_, ?_, ?_, ?_⟩
  · rw [calculate_index_cons p ps h, hze]
    norm_num [sentiment_label]
  · intro s hs
    simp [sentiment_label, hs]
  · intro s hs
    simp [sentiment_label, hs]
    omega
  · intro s h75 h25
    simp [sentiment_label, h75, h25]

/-- C4 witness: on the constant series [100, 100] the mean is 100, the
momentum is zero, and the handler math yields score 50, sentiment
"Neutral". -/
theorem calculate_index_clamp_formula_witness :
    calculate_index [(100 : ℚ), 100] = some 50 ∧ sentiment_label 50 = "Neutral" :=
  (calculate_index_clamp_formula 100 [100] (by norm_num)).2.1 (by norm_num [last_price])

/-- C4 counterexample: on `prices_ce` (mean 200, current price 229) the
clamped score is 64.5; the source's `int()` truncation returns 64 while
the spec's "rounded to an integer", read as rounding to the nearest
integer, gives 65. -/
theorem calculate_index_rounding_counterexample :
    calculate_index prices_ce = some 64 ∧
    index_score_rounded_spec prices_ce = some 65 ∧
    (64 : ℤ) ≠ 65 := by
  refine ⟨?_, ?_, by decide⟩
  · norm_num [prices_ce, calculate_index, last_price]
  · norm_num [prices_ce, index_score_rounded_spec, last_price, round_eq]

/-- C10 counterexample: a single-entry price list does not reach any
error branch — `calculate_index [1]` is total and returns 50 — and an
all-zero list does not raise either (the non-finite momentum is absorbed
by the clamp and the result is 100), so totality does not require "at
least two entries and a nonzero mean"; only the empty list errors. -/
theorem calculate_index_precondition_counterexample :
    calculate_index [(1 : ℚ)] = some 50 ∧
    calculate_index [(0 : ℚ), 0] = some 100 ∧
    calculate_index ([] : List ℚ) = none := by
  refine ⟨?_, ?_, rfl⟩
  · norm_num [calculate_index, last_price]
  · norm_num [calculate_index, last_price]

/-- C10 (amended): `calculate_index` reaches its error branch (the
`IndexError` of `prices[-1]`) exactly on the empty price list; on every
non-empty price list — even a single entry, even a zero mean — it
returns an integer in [0, 100], a precondition (non-emptiness) the spec
does not state. -/
theorem calculate_index_total_on_nonempty :
    calculate_index ([] : List ℚ) = none ∧
    ∀ (p : ℚ) (ps : List ℚ), ∃ s : ℤ,
      calculate_index (p :: ps) = some s ∧ 0 ≤ s ∧ s ≤ 100 := by
  refine ⟨rfl, fun p ps => ?_⟩
  by_cases h : (p :: ps).sum / (((p :: ps).length : ℕ) : ℚ) = 0
  · refine ⟨if last_price p ps < 0 then 0 else 100, calculate_index_cons_zero p ps h, ?_, ?_⟩
    · split <;> norm_num
    · split <;> norm_num
  · set b : ℚ := 50 +
      (last_price p ps - (p :: ps).sum / (((p :: ps).length : ℕ) : ℚ)) /
        ((p :: ps).sum / (((p :: ps).length : ℕ) : ℚ)) * 100 with hb
    refine ⟨⌊max 0 (min 100 b)⌋, calculate_index_cons p ps h, ?_, ?_⟩
    · exact Int.le_floor.mpr (by push_cast; exact le_max_left _ _)
    · have hle : max (0 : ℚ) (min 100 b) ≤ 100 := max_le (by norm_num) (min_le_left _ _)
      calc ⌊max (0 : ℚ) (min 100 b)⌋ ≤ ⌊(100 : ℚ)⌋ := Int.floor_le_floor hle
        _ = 100 := by norm_num

/-- C3 counterexample: no constant rate r in [60, 65] satisfies
`limit h = r * h` for all positive window sizes — at h = 4 the cap is
300, which would need r = 75. -/
theorem limit_linear_rate_counterexample :
    ¬ ∃ r : ℚ, 60 ≤ r ∧ r ≤ 65 ∧ ∀ h : ℚ, 0 < h → ((limit h : ℕ) : ℚ) = r * h := by
  rintro ⟨r, -, h65, hall⟩
  have h4 := hall 4 (by norm_num)
  simp only [limit] at h4
  norm_num at h4
  linarith

/-- C3 (amended): the object-fetch cap is a two-step constant, not a
linear rate: 300 objects for windows of at most 4 hours and 1500
otherwise; it is monotone in the window, and the 60–65 objects-per-hour
reading holds only at the 24-hour preset (1440 ≤ 1500 ≤ 1560). -/
theorem limit_step_cap :
    (∀ h₁ h₂ : ℚ, h₁ ≤ h₂ → limit h₁ ≤ limit h₂) ∧
    (∀ h : ℚ, h ≤ 4 → limit h = 300) ∧
    (∀ h : ℚ, 4 < h → limit h = 1500) ∧
    60 * 24 ≤ ((limit 24 : ℕ) : ℚ) ∧ ((limit 24 : ℕ) : ℚ) ≤ 65 * 24 := by
  refine ⟨fun h₁ h₂ hle => ?_, fun h hle => by simp [limit, hle],
    fun h hlt => by simp [limit, not_le.mpr hlt], by norm_num [limit], by norm_num [limit]⟩
  by_cases c1 : h₁ ≤ 4 <;> by_cases c2 : h₂ ≤ 4 <;> simp [limit, c1, c2]
  · exact absurd (le_trans hle c2) c1

/-- C3 witness: concrete instances of the step cap — monotone between 2
and 20 hours, 300 at 3 hours, 1500 at 13 hours. -/
theorem limit_step_cap_witness :
    limit 2 ≤ limit 20 ∧ limit 3 = 300 ∧ limit 13 = 1500 :=
  ⟨limit_step_cap.1 2 20 (by norm_num), limit_step_cap.2.1 3 (by norm_num),
    limit_step_cap.2.2.1 13 (by norm_num)⟩

/-- C6: partition enumeration always contains today's key; the keys of
prior days it contains are exactly one (yesterday's) when
`window_hours > 12` and none otherwise. -/
theorem enumerate_prefixes_day_policy :
    ∀ (hours_to_load : ℚ) (today : ℤ),
      today ∈ enumerate_prefixes hours_to_load today ∧
      ((enumerate_prefixes hours_to_load today).filter (fun d => decide (d < today)) =
        if 12 < hours_to_load then [today - 1] else []) ∧
      (today - 1 ∈ enumerate_prefixes hours_to_load today ↔ 12 < hours_to_load) := by
  intro h today
  by_cases hc : 12 < h <;> simp [enumerate_prefixes, hc]

/-- C8: whale detection returns exactly the input records with quantity
strictly above the threshold (multiplicity preserved), a record with
quantity equal to the threshold is excluded, and a threshold at least
every quantity present — in particular the maximum quantity — yields the
empty list. -/
theorem whales_threshold_spec :
    ∀ (df : List TradeRec) (t : ℚ),
      (∀ r : TradeRec, (whales df t).count r = if t < r.quantity then df.count r else 0) ∧
      (∀ r ∈ whales df t, r ∈ df ∧ t < r.quantity) ∧
      (∀ r ∈ df, t < r.quantity → r ∈ whales df t) ∧
      (∀ r ∈ df, r.quantity = t → r ∉ whales df t) ∧
      ((∀ r ∈ df, r.quantity ≤ t) → whales df t = []) := by
  intro df t
  refine ⟨fun r => ?_, fun r hr => ?_, fun r hr hq => ?_, fun r hr hq hmem => ?_, fun hall => ?_⟩
  · by_cases hq : t < r.quantity
    · rw [if_pos hq]
      exact List.count_filter (by simpa using hq)
    · rw [if_neg hq]
      refine List.count_eq_zero.mpr fun hmem => ?_
      exact hq (by simpa using List.of_mem_filter hmem)
  · have h := List.mem_filter.mp hr
    exact ⟨h.1, by simpa using h.2⟩
  · exact List.mem_filter.mpr ⟨hr, by simpa using hq⟩
  · have h := (List.mem_filter.mp hmem).2
    rw [hq] at h
    simp at h
  · refine List.filter_eq_nil_iff.mpr fun r hr => ?_
    simpa using not_lt.mpr (hall r hr)

/-- C8 witness: with trades of quantity 0.05, 0.1 and 0.5 and threshold
0.1, the 0.5-trade is detected, the boundary-equal 0.1-trade is
excluded, and raising the threshold to the maximum quantity 0.5 empties
the output. -/
theorem whales_threshold_spec_witness :
    (⟨2, 102, 1/2, true⟩ : TradeRec) ∈
        whales [⟨0, 100, 1/20, true⟩, ⟨1, 101, 1/10, false⟩, ⟨2, 102, 1/2, true⟩] (1/10) ∧
    (⟨1, 101, 1/10, false⟩ : TradeRec) ∉
        whales [⟨0, 100, 1/20, true⟩, ⟨1, 101, 1/10, false⟩, ⟨2, 102, 1/2, true⟩] (1/10) ∧
    whales [⟨0, 100, 1/20, true⟩, ⟨1, 101, 1/10, false⟩, ⟨2, 102, 1/2, true⟩] (1/2) = [] := by
  refine ⟨(whales_threshold_spec _ (1/10)).2.2.1 _ (by simp) (by norm_num),
    (whales_threshold_spec _ (1/10)).2.2.2.1 _ (by simp) (by norm_num),
    (whales_threshold_spec _ (1/2)).2.2.2.2 fun r hr => ?_⟩
  fin_cases hr <;> norm_num

/-- C9: the record merger over the capped fetch set tolerates per-object
failure — when every object's fetch-or-decode fails the merged batch is
empty (a value, not an exception), a single failing object is skipped
while loading continues, and a succeeding object contributes exactly its
decoded frame. -/
theorem final_df_failure_tolerance :
    ∀ (files : List String) (fetch : String → Option (List TradeRec)),
      ((∀ k ∈ files, fetch k = none) → final_df files fetch = []) ∧
      (∀ k rest, fetch k = none → final_df (k :: rest) fetch = final_df rest fetch) ∧
      (∀ k dfk rest, fetch k = some dfk →
        final_df (k :: rest) fetch = dfk ++ final_df rest fetch) := by
  intro files fetch
  refine ⟨fun hall => ?_, fun k rest hk => ?_, fun k dfk rest hk => ?_⟩
  · have h : data_frames files fetch = [] := by
      simp only [data_frames, List.filterMap_eq_nil_iff]
      exact hall
    simp [final_df, h]
  · simp [final_df, data_frames, List.filterMap_cons, hk]
  · simp [final_df, data_frames, List.filterMap_cons, hk]

/-- C9 witness: two objects that both fail to decode produce the empty
batch. -/
theorem final_df_failure_tolerance_witness :
    final_df ["btc_trades_20251101_a", "btc_trades_20251101_b"] (fun _ => none) = [] :=
  (final_df_failure_tolerance _ (fun _ => none)).1 (fun _ _ => rfl)

/-- C2: for every batch, positive window and reference time, the window
filter-and-sort stage returns exactly the input records with
`time > ref - window` (multiplicity preserved, so duplicates survive and
unordered input is handled), excludes records whose time equals the
cutoff, and is sorted ascending by time. -/
theorem filter_and_sort_spec :
    ∀ (batch : List TradeRec) (hours_to_load ref : ℚ), 0 < hours_to_load →
      (∀ r : TradeRec, (filter_and_sort batch hours_to_load ref).count r =
        if ref - 3600 * hours_to_load < r.time then batch.count r else 0) ∧
      (∀ r ∈ filter_and_sort batch hours_to_load ref,
        ref - 3600 * hours_to_load < r.time) ∧
      (∀ r : TradeRec, r.time = ref - 3600 * hours_to_load →
        r ∉ filter_and_sort batch hours_to_load ref) ∧
      (filter_and_sort batch hours_to_load ref).Sorted timeLE := by
  intro batch wh ref hwh
  simp only [filter_and_sort]
  have hperm := List.perm_insertionSort timeLE
    (batch.filter (fun r => decide (ref - 3600 * wh < r.time)))
  refine ⟨fun r => ?_, fun r hr => ?_, fun r hr hmem => ?_,
    List.sorted_insertionSort timeLE _⟩
  · rw [hperm.count_eq]
    by_cases hq : ref - 3600 * wh < r.time
    · rw [if_pos hq]
      exact List.count_filter (by simpa using hq)
    · rw [if_neg hq]
      refine List.count_eq_zero.mpr fun hmem => ?_
      exact hq (by simpa using List.of_mem_filter hmem)
  · have := List.of_mem_filter (hperm.mem_iff.mp hr)
    simpa using this
  · have := List.of_mem_filter (hperm.mem_iff.mp hmem)
    rw [hr] at this
    simp at this

/-- C2 witness: a batch given out of order, with a duplicate timestamp
and a record exactly at the cutoff (window 1 hour, reference time 7200 s,
cutoff 3600 s): the duplicate survives with multiplicity 2, the
boundary-equal record is excluded, and the output is sorted. -/
theorem filter_and_sort_spec_witness :
    (filter_and_sort [⟨7000, 1, 1, true⟩, ⟨3600, 2, 2, false⟩, ⟨5000, 3, 3, true⟩,
        ⟨5000, 3, 3, true⟩] 1 7200).count ⟨5000, 3, 3, true⟩ = 2 ∧
    (⟨3600, 2, 2, false⟩ : TradeRec) ∉
      filter_and_sort [⟨7000, 1, 1, true⟩, ⟨3600, 2, 2, false⟩, ⟨5000, 3, 3, true⟩,
        ⟨5000, 3, 3, true⟩] 1 7200 ∧
    (filter_and_sort [⟨7000, 1, 1, true⟩, ⟨3600, 2, 2, false⟩, ⟨5000, 3, 3, true⟩,
        ⟨5000, 3, 3, true⟩] 1 7200).Sorted timeLE := by
  have h := filter_and_sort_spec [⟨7000, 1, 1, true⟩, ⟨3600, 2, 2, false⟩,
    ⟨5000, 3, 3, true⟩, ⟨5000, 3, 3, true⟩] 1 7200 (by norm_num)
  refine ⟨?_, h.2.2.1 _ (by norm_num), h.2.2.2⟩
  rw [h.1 ⟨5000, 3, 3, true⟩]
  norm_num [List.count_cons, TradeRec.mk.injEq]

/-- C5: the handler appends to persistence exactly once per successful
fresh computation and never otherwise — a cache hit (payload and
timestamp present, age under 5 minutes) returns the cached payload
unchanged with zero fetches, zero writes and an untouched cache; a fetch
failure performs no write (and leaves the cache untouched) even when it
serves a stale payload; and a fresh computation that succeeds performs
exactly one write, of the freshly computed payload.  In every case at
most one write happens. -/
theorem handler_write_discipline :
    ∀ (c : CacheState) (fetched : Option (List ℚ)) (now : ℚ) (coin : String),
      (∀ p t, c.payload = some p → c.last_updated = some t → now - t < 5 →
        handler c fetched now coin = ⟨some (200, some p), c, [], 0⟩) ∧
      (fetched = none → (handler c fetched now coin).writes = [] ∧
        (handler c fetched now coin).cache = c) ∧
      (∀ prices s, cache_hit c now = false → fetched = some prices →
        calculate_index prices = some s →
        (handler c fetched now coin).writes = [⟨coin, s, sentiment_label s, now⟩]) ∧
      (handler c fetched now coin).writes.length ≤ 1 := by
  intro c fetched now coin
  obtain ⟨lu, pl⟩ := c
  refine ⟨fun p t hp ht hage => ?_, fun hf => ?_, fun prices s hmiss hf hs => ?_, ?_⟩
  · cases hp
    cases ht
    simp [handler, hage]
  · cases hf
    cases pl <;> cases lu <;>
      simp [handler, handler_fresh] <;>
      split <;> simp
  · cases hf
    cases pl <;> cases lu
    · simp [handler, handler_fresh, hs]
    · simp [handler, handler_fresh, hs]
    · simp [handler, handler_fresh, hs]
    · simp only [cache_hit, decide_eq_false_iff_not, not_lt] at hmiss
      simp [handler, handler_fresh, hs, not_lt.mpr hmiss]
  · cases pl <;> cases lu <;> simp [handler, handler_fresh] <;>
      first
        | (rcases fetched with - | prices <;> simp <;>
            rcases h : calculate_index prices with - | s <;> simp)
        | (split <;>
            [simp;
             (rcases fetched with - | prices <;> simp <;>
               rcases h : calculate_index prices with - | s <;> simp)])

/-- C5 witness: a 2-minute-old cache entry is served unchanged with no
fetch and no write; a fetch failure writes nothing even with a stale
cache; a fresh successful computation on the series [100, 100] writes
exactly its one payload. -/
theorem handler_write_discipline_witness :
    handler ⟨some 10, some ⟨"pepe", 50, "Neutral", 10⟩⟩ none 12 "pepe" =
      ⟨some (200, some ⟨"pepe", 50, "Neutral", 10⟩),
        ⟨some 10, some ⟨"pepe", 50, "Neutral", 10⟩⟩, [], 0⟩ ∧
    (handler ⟨some 0, some ⟨"pepe", 50, "Neutral", 0⟩⟩ none 100 "pepe").writes = [] ∧
    (handler ⟨none, none⟩ (some [100, 100]) 7 "pepe").writes = [⟨"pepe", 50, "Neutral", 7⟩] := by
  have h3 := (handler_write_discipline ⟨none, none⟩ (some [100, 100]) 7 "pepe").2.2.1
    [100, 100] 50 rfl rfl (by norm_num [calculate_index, last_price])
  refine ⟨(handler_write_discipline _ none 12 "pepe").1 _ 10 rfl rfl (by norm_num),
    ((handler_write_discipline _ none 100 "pepe").2.1 rfl).1, ?_⟩
  rw [h3]
  norm_num [sentiment_label]


theorem groupByBin_ne_nil (w : ℤ) (r : TradeRec) (rs : List TradeRec) :
    groupByBin w (r :: rs) ≠ [] := by
  rcases h : groupByBin w rs with - | ⟨⟨g, gs⟩, rest⟩
  · simp [groupByBin, h]
  · simp only [groupByBin, h]
    split <;> simp

theorem groupByBin_flatten (w : ℤ) :
    ∀ l : List TradeRec, ((groupByBin w l).map (fun p => p.1 :: p.2)).flatten = l := by
  intro l
  induction l with
  | nil => rfl
  | cons r rs ih =>
    rcases h : groupByBin w rs with - | ⟨⟨g, gs⟩, rest⟩
    · have hrs : rs = [] := by
        rcases rs with - | ⟨x, xs⟩
        · rfl
        · exact absurd h (groupByBin_ne_nil w x xs)
      subst hrs
      simp [groupByBin]
    · rw [h] at ih
      simp only [groupByBin, h]
      split
      · simpa using ih
      · simpa using ih

theorem mem_of_mem_groupByBin (w : ℤ) (l : List TradeRec)
    (p : TradeRec × List TradeRec) (hp : p ∈ groupByBin w l) :
    ∀ x ∈ p.1 :: p.2, x ∈ l := by
  intro x hx
  rw [← groupByBin_flatten w l]
  exact List.mem_flatten.mpr ⟨p.1 :: p.2, List.mem_map.mpr ⟨p, hp, rfl⟩, hx⟩

theorem mem_groupByBin_of_mem (w : ℤ) (l : List TradeRec) (x : TradeRec) (hx : x ∈ l) :
    ∃ p ∈ groupByBin w l, x ∈ p.1 :: p.2 := by
  rw [← groupByBin_flatten w l] at hx
  obtain ⟨s, hs, hxs⟩ := List.mem_flatten.mp hx
  obtain ⟨p, hp, rfl⟩ := List.mem_map.mp hs
  exact ⟨p, hp, hxs⟩

theorem bin_eq_of_mem_groupByBin (w : ℤ) :
    ∀ l : List TradeRec, ∀ p ∈ groupByBin w l, ∀ x ∈ p.1 :: p.2,
      binStart w x.time = binStart w p.1.time := by
  intro l
  induction l with
  | nil => simp [groupByBin]
  | cons r rs ih =>
    intro p hp x hx
    rcases h : groupByBin w rs with - | ⟨⟨g, gs⟩, rest⟩ <;>
      simp only [groupByBin, h] at hp
    · simp only [List.mem_singleton] at hp
      subst hp
      simp only [List.mem_singleton] at hx
      simp [hx]
    · rw [h] at ih
      by_cases hbin : binStart w r.time = binStart w g.time
      · rw [if_pos hbin] at hp
        rcases List.mem_cons.mp hp with hph | hpt
        · subst hph
          rcases List.mem_cons.mp hx with hxh | hxt
          · simp [hxh]
          · have hx' := ih (g, gs) (List.mem_cons_self _ _) x (by simpa using hxt)
            simp only at hx' ⊢
            rw [hx', ← hbin]
        · exact ih p (List.mem_cons_of_mem _ hpt) x hx
      · rw [if_neg hbin] at hp
        rcases List.mem_cons.mp hp with hph | hpt
        · subst hph
          simp only [List.mem_singleton] at hx
          simp [hx]
        · exact ih p hpt x hx

theorem le_foldl_max (l : List TradeRec) :
    ∀ a : ℚ, a ≤ l.foldl (fun m x => max m x.price) a := by
  induction l with
  | nil => exact fun a => le_refl a
  | cons x xs ih => exact fun a => le_trans (le_max_left a x.price) (ih (max a x.price))

theorem price_le_foldl_max (l : List TradeRec) :
    ∀ a : ℚ, ∀ x ∈ l, x.price ≤ l.foldl (fun m x => max m x.price) a := by
  induction l with
  | nil => simp
  | cons y ys ih =>
    intro a x hx
    rcases List.mem_cons.mp hx with hxy | hxt
    · subst hxy
      exact le_trans (le_max_right a x.price) (le_foldl_max ys (max a x.price))
    · exact ih (max a y.price) x hxt

theorem foldl_min_le (l : List TradeRec) :
    ∀ a : ℚ, l.foldl (fun m x => min m x.price) a ≤ a := by
  induction l with
  | nil => exact fun a => le_refl a
  | cons x xs ih => exact fun a => le_trans (ih (min a x.price)) (min_le_left a x.price)

theorem foldl_min_le_price (l : List TradeRec) :
    ∀ a : ℚ, ∀ x ∈ l, l.foldl (fun m x => min m x.price) a ≤ x.price := by
  induction l with
  | nil => simp
  | cons y ys ih =>
    intro a x hx
    rcases List.mem_cons.mp hx with hxy | hxt
    · subst hxy
      exact le_trans (foldl_min_le ys (min a x.price)) (min_le_right a x.price)
    · exact ih (min a y.price) x hxt

theorem close_price_mem (rs : List TradeRec) :
    ∀ r : TradeRec, ∃ x ∈ r :: rs, close_price r rs = x.price := by
  induction rs with
  | nil => exact fun r => ⟨r, List.mem_singleton.mpr rfl, rfl⟩
  | cons y ys ih =>
    intro r
    obtain ⟨x, hx, hval⟩ := ih y
    exact ⟨x, List.mem_cons_of_mem r hx, hval⟩

theorem sum_qty_nonneg (l : List TradeRec) (h : ∀ x ∈ l, 0 ≤ x.quantity) :
    0 ≤ sum_qty l := by
  refine List.sum_nonneg fun q hq => ?_
  obtain ⟨x, hx, rfl⟩ := List.mem_map.mp hq
  exact h x hx

theorem binStart_mono (w : ℤ) (hw : 0 < w) {t t' : ℚ} (h : t ≤ t') :
    binStart w t ≤ binStart w t' := by
  have hwq : (0 : ℚ) < (w : ℚ) := by exact_mod_cast hw
  exact mul_le_mul_of_nonneg_left
    (Int.floor_le_floor ((div_le_div_iff_of_pos_right hwq).mpr h)) (le_of_lt hw)

theorem groupByBin_sorted_spec (w : ℤ) (hw : 0 < w) :
    ∀ l : List TradeRec, l.Pairwise timeLE →
      (∀ p ∈ groupByBin w l,
        p.1 :: p.2 = l.filter (fun x => decide (binStart w x.time = binStart w p.1.time))) ∧
      (groupByBin w l).Pairwise
        (fun p q => binStart w p.1.time < binStart w q.1.time) := by
  intro l
  induction l with
  | nil => exact fun _ => ⟨by simp [groupByBin], by simp [groupByBin]⟩
  | cons r rs ih =>
    intro hsorted
    obtain ⟨hr, hs'⟩ := List.pairwise_cons.mp hsorted
    obtain ⟨IH1, IH2⟩ := ih hs'
    rcases h : groupByBin w rs with - | ⟨⟨g, gs⟩, rest⟩
    · have hrs : rs = [] := by
        rcases rs with - | ⟨x, xs⟩
        · rfl
        · exact absurd h (groupByBin_ne_nil w x xs)
      subst hrs
      refine ⟨fun p hp => ?_, by simp [groupByBin]⟩
      simp only [groupByBin] at hp
      simp only [List.mem_singleton] at hp
      subst hp
      simp
    · rw [h] at IH1 IH2
      have hgg : (g, gs) ∈ groupByBin w rs := by
        rw [h]
        exact List.mem_cons_self _ _
      have hgmem : g ∈ rs :=
        mem_of_mem_groupByBin w rs (g, gs) hgg g (List.mem_cons_self _ _)
      have hrg : binStart w r.time ≤ binStart w g.time := binStart_mono w hw (hr g hgmem)
      have hrest : ∀ q ∈ rest, binStart w g.time < binStart w q.1.time :=
        (List.pairwise_cons.mp IH2).1
      have hbinx : ∀ x ∈ rs, binStart w x.time = binStart w g.time ∨
          binStart w g.time < binStart w x.time := by
        intro x hx
        obtain ⟨q, hq, hxq⟩ := mem_groupByBin_of_mem w rs x hx
        have hxbin := bin_eq_of_mem_groupByBin w rs q hq x hxq
        rw [h] at hq
        rcases List.mem_cons.mp hq with hqh | hqt
        · subst hqh
          exact Or.inl hxbin
        · refine Or.inr ?_
          rw [hxbin]
          exact hrest q hqt
      by_cases hbin : binStart w r.time = binStart w g.time
      · have hgroups : groupByBin w (r :: rs) = (r, g :: gs) :: rest := by
          simp only [groupByBin, h]
          rw [if_pos hbin]
        rw [hgroups]
        constructor
        · intro p hp
          rcases List.mem_cons.mp hp with hph | hpt
          · subst hph
            simp only [List.filter_cons]
            rw [if_pos (by simp)]
            refine congrArg (List.cons r) ?_
            have hfg := IH1 (g, gs) (List.mem_cons_self _ _)
            simp only at hfg
            simp only [hbin]
            exact hfg
          · have hlt : binStart w g.time < binStart w p.1.time := hrest p hpt
            have hne : ¬ binStart w r.time = binStart w p.1.time := by omega
            simp only [List.filter_cons]
            rw [if_neg (by simpa using hne)]
            exact IH1 p (List.mem_cons_of_mem _ hpt)
        · refine List.pairwise_cons.mpr ⟨fun q hq => ?_, (List.pairwise_cons.mp IH2).2⟩
          rw [show (r, g :: gs).1 = r from rfl, hbin]
          exact hrest q hq
      · have hlt : binStart w r.time < binStart w g.time := lt_of_le_of_ne hrg hbin
        have hgroups : groupByBin w (r :: rs) = (r, []) :: (g, gs) :: rest := by
          simp only [groupByBin, h]
          rw [if_neg hbin]
        rw [hgroups]
        constructor
        · intro p hp
          rcases List.mem_cons.mp hp with hph | hpt
          · subst hph
            simp only [List.filter_cons]
            rw [if_pos (by simp)]
            refine congrArg (List.cons r) ?_
            symm
            rw [List.filter_eq_nil_iff]
            intro x hx
            have hor := hbinx x hx
            simp only [decide_eq_true_eq]
            omega
          · rcases List.mem_cons.mp hpt with hpg | hpr
            · subst hpg
              simp only [List.filter_cons]
              rw [if_neg (by simpa using hbin)]
              exact IH1 (g, gs) (List.mem_cons_self _ _)
            · have hlt2 : binStart w g.time < binStart w p.1.time := hrest p hpr
              have hne : ¬ binStart w r.time = binStart w p.1.time := by omega
              simp only [List.filter_cons]
              rw [if_neg (by simpa using hne)]
              exact IH1 p (List.mem_cons_of_mem _ hpr)
        · refine List.pairwise_cons.mpr ⟨fun q hq => ?_, IH2⟩
          rcases List.mem_cons.mp hq with hqg | hqr
          · subst hqg
            simpa using hlt
          · have := hrest q hqr
            show binStart w r.time < binStart w q.1.time
            omega

/-- C7: every bar the resampler emits satisfies low ≤ open ≤ high,
low ≤ close ≤ high and (for non-negative input quantities) volume ≥ 0;
every bar corresponds to a bin containing at least one input record, so
empty bins are never emitted; and on time-sorted input, a bar whose bin
holds exactly one input record has open = high = low = close, that
record's price. -/
theorem resample_bar_invariants :
    ∀ (w : ℤ) (recs : List TradeRec) (bar : Bar), 0 < w →
      bar ∈ resample w recs →
      ((∀ r ∈ recs, 0 ≤ r.quantity) →
        bar.low ≤ bar.open_p ∧ bar.open_p ≤ bar.high ∧
        bar.low ≤ bar.close ∧ bar.close ≤ bar.high ∧ 0 ≤ bar.volume) ∧
      (∃ r ∈ recs, binStart w r.time = bar.bin_start) ∧
      (recs.Pairwise timeLE →
        ∀ r : TradeRec,
          recs.filter (fun x => decide (binStart w x.time = binStart w r.time)) = [r] →
          binStart w r.time = bar.bin_start →
          bar.open_p = r.price ∧ bar.high = r.price ∧
          bar.low = r.price ∧ bar.close = r.price) := by
  intro w recs bar hw hbar
  simp only [resample, List.mem_map] at hbar
  obtain ⟨p, hp, rfl⟩ := hbar
  obtain ⟨ph, pt⟩ := p
  refine ⟨fun hq => ?_, ?_, fun hsorted r hfilter hbinr => ?_⟩
  · refine ⟨foldl_min_le pt ph.price, le_foldl_max pt ph.price, ?_, ?_, ?_⟩
    · obtain ⟨x, hx, hval⟩ := close_price_mem pt ph
      show min_price ph pt ≤ close_price ph pt
      rw [hval]
      rcases List.mem_cons.mp hx with hxh | hxt
      · subst hxh
        exact foldl_min_le pt x.price
      · exact foldl_min_le_price pt ph.price x hxt
    · obtain ⟨x, hx, hval⟩ := close_price_mem pt ph
      show close_price ph pt ≤ max_price ph pt
      rw [hval]
      rcases List.mem_cons.mp hx with hxh | hxt
      · subst hxh
        exact le_foldl_max pt x.price
      · exact price_le_foldl_max pt ph.price x hxt
    · show 0 ≤ ph.quantity + sum_qty pt
      have hmem := mem_of_mem_groupByBin w recs (ph, pt) hp
      have h1 : 0 ≤ ph.quantity := hq ph (hmem ph (List.mem_cons_self _ _))
      have h2 : 0 ≤ sum_qty pt :=
        sum_qty_nonneg pt fun x hx => hq x (hmem x (List.mem_cons_of_mem _ hx))
      linarith
  · exact ⟨ph, mem_of_mem_groupByBin w recs (ph, pt) hp ph (List.mem_cons_self _ _), rfl⟩
  · have hcorr := (groupByBin_sorted_spec w hw recs hsorted).1 (ph, pt) hp
    simp only at hcorr
    have hbin' : binStart w r.time = binStart w ph.time := hbinr
    rw [← hbin'] at hcorr
    rw [hfilter] at hcorr
    have hhead : ph = r := by
      injection hcorr with h1 h2
    have htail : pt = [] := by
      injection hcorr with h1 h2
    subst hhead
    subst htail
    exact ⟨rfl, rfl, rfl, rfl⟩

/-- C7 witness: on the spec §8 scenario batch `tl2` (two trades 90 s
apart, 1-minute bins) the bar of the first bin is emitted with
open = high = low = close = 100 and volume 0.01, and the theorem's
hypotheses — positive width, membership, non-negative quantities,
sortedness and the singleton-bin premise — all hold concretely. -/
theorem resample_bar_invariants_witness :
    (⟨0, 100, 100, 100, 100, 1/100⟩ : Bar) ∈ resample 60 tl2 ∧
    (⟨0, 100, 100, 100, 100, 1/100⟩ : Bar).low ≤ (⟨0, 100, 100, 100, 100, 1/100⟩ : Bar).high ∧
    (0 : ℚ) ≤ (⟨0, 100, 100, 100, 100, 1/100⟩ : Bar).volume ∧
    (⟨0, 100, 100, 100, 100, 1/100⟩ : Bar).open_p = (⟨0, 100, 1/100, true⟩ : TradeRec).price ∧
    (⟨0, 100, 100, 100, 100, 1/100⟩ : Bar).close = (⟨0, 100, 1/100, true⟩ : TradeRec).price := by
  have hmem : (⟨0, 100, 100, 100, 100, 1/100⟩ : Bar) ∈ resample 60 tl2 := by
    norm_num [resample, groupByBin, mkBar, binStart, max_price, min_price, close_price,
      sum_qty, tl2]
  have h := resample_bar_invariants 60 tl2 ⟨0, 100, 100, 100, 100, 1/100⟩ (by norm_num) hmem
  have hinv := h.1 (by intro x hx; fin_cases hx <;> norm_num)
  have hsing := h.2.2 (by norm_num [tl2, List.pairwise_cons, timeLE]) ⟨0, 100, 1/100, true⟩
    (by norm_num [tl2, List.filter_cons, binStart]) (by norm_num [binStart])
  exact ⟨hmem, le_trans hinv.1 hinv.2.1, hinv.2.2.2.2, hsing.1, hsing.2.2.2⟩

/-- C1 counterexample: at `window_hours = 24 > 12` the dashboard still
resamples at 1-minute resolution — on the batch `tl2` (trades 90 s
apart) it emits two bars, while 5-minute binning would emit one — so the
claimed adaptive 5-minute width for long windows is false. -/
theorem df_resampled_bin_width_counterexample :
    (12 : ℚ) < 24 ∧
    (df_resampled 24 tl2).length = 2 ∧
    (resample 300 tl2).length = 1 ∧
    df_resampled 24 tl2 ≠ resample 300 tl2 := by
  have h60 : (df_resampled 24 tl2).length = 2 := by
    norm_num [df_resampled, resample, groupByBin, binStart, tl2]
  have h300 : (resample 300 tl2).length = 1 := by
    norm_num [resample, groupByBin, binStart, tl2]
  refine ⟨by norm_num, h60, h300, fun hcontra => ?_⟩
  rw [hcontra, h300] at h60
  exact absurd h60 (by norm_num)

/-- C1 (amended): the resampler's bin width is the fixed 1-minute rule
for every requested window — `df_resampled` ignores `window_hours` and
always aggregates in 60-second bins, every emitted bin boundary being a
multiple of 60 seconds. -/
theorem df_resampled_fixed_width :
    ∀ (hours_to_load : ℚ) (df : List TradeRec),
      df_resampled hours_to_load df = resample 60 df ∧
      ∀ bar ∈ df_resampled hours_to_load df, (60 : ℤ) ∣ bar.bin_start := by
  intro wh df
  refine ⟨rfl, fun bar hbar => ?_⟩
  simp only [df_resampled, resample, List.mem_map] at hbar
  obtain ⟨p, hp, rfl⟩ := hbar
  exact ⟨⌊p.1.time / (60 : ℚ)⌋, rfl⟩

/-- C1 witness: at the 24-hour window on batch `tl2` the stage equals
1-minute resampling, and the second emitted bar starts on the 60-second
boundary. -/
theorem df_resampled_fixed_width_witness :
    df_resampled 24 tl2 = resample 60 tl2 ∧
    (60 : ℤ) ∣ (⟨60, 110, 110, 110, 110, 1/5⟩ : Bar).bin_start := by
  refine ⟨(df_resampled_fixed_width 24 tl2).1, (df_resampled_fixed_width 24 tl2).2 _ ?_⟩
  norm_num [df_resampled, resample, groupByBin, mkBar, binStart, max_price, min_price,
    close_price, sum_qty, tl2]
